import Mathlib

/-!
Shallow embedding of the audio-spectrum-generator core:
`src/spectrum.rs` (frame sequencer, log-frequency bar aggregation, amplitude
compression) and `src/draw.rs` (rounded-bar rasterizer).

f32 values are modelled over the reals; the `overlap` fraction is modelled as a
rational so the integer hop size stays computable.  The forward FFT plus
complex-norm step is provided by the external `rustfft` crate, so it is
abstracted as a function parameter `fft_norms : List ℝ → List ℝ`; every other
step is translated from the repository source.
-/

/-- Hop size, from src/spectrum.rs lines 17 and 96:
`(fft_size as f32 * (1.0 - overlap)).max(1.0) as usize`.
The `as usize` cast of the nonnegative value (after `.max(1.0)`) truncates,
i.e. takes the floor. -/
def hop (fft_size : ℕ) (overlap : ℚ) : ℕ :=
  Nat.floor (max (1 : ℚ) ((fft_size : ℚ) * (1 - overlap)))

/-- Hann-family window coefficient, src/spectrum.rs lines 50-53:
`0.5 * (1.0 - cos(PI * (i + 1) / (n + 1)))`. -/
noncomputable def hann_window (i n : ℕ) : ℝ :=
  0.5 * (1 - Real.cos (Real.pi * ((i : ℝ) + 1) / ((n : ℝ) + 1)))

/-- Target bar index of one FFT bin, src/spectrum.rs lines 66-78:
frequency `f = bin_ix * sr / fft_size`, position
`t = clamp((ln(f+1) - ln(f_min+1)) / (ln(f_max+1) - ln(f_min+1)), 0, 1)`
with `f_min = sr / fft_size`, `f_max = sr * 0.5`, and bar index
`(t * bars).min(bars - 1) as usize` (the cast truncates; negative values cast
to 0, matching `Nat.floor`). -/
noncomputable def bar_ix_of (sample_rate fft_size bars : ℕ) (bin_ix : ℕ) : ℕ :=
  let sr : ℝ := sample_rate
  let f_min := sr / (fft_size : ℝ)
  let f_max := sr * 0.5
  let log_f_min := Real.log (f_min + 1)
  let log_f_max := Real.log (f_max + 1)
  let log_span := log_f_max - log_f_min
  let f := (bin_ix : ℝ) * sr / (fft_size : ℝ)
  let log_f := Real.log (f + 1)
  let t := min (max ((log_f - log_f_min) / log_span) 0) 1
  Nat.floor (min (t * (bars : ℝ)) ((bars : ℝ) - 1))

/-- The bin loop of `aggregate_bins_to_bars_log`, src/spectrum.rs lines 74-82:
for each `(bin_ix, mag)` pair, `if bar_ix < bars && mag > result[bar_ix]`
the entry is overwritten with `mag`. -/
noncomputable def agg_loop (sample_rate fft_size bars : ℕ) :
    List ℝ → ℕ → List ℝ → List ℝ
  | [], _, result => result
  | mag :: rest, bin_ix, result =>
    let b := bar_ix_of sample_rate fft_size bars bin_ix
    let result' := if b < bars ∧ result.getD b 0 < mag then result.set b mag else result
    agg_loop sample_rate fft_size bars rest (bin_ix + 1) result'

/-- src/spectrum.rs lines 57-84.  The `enumerate().skip(1)` iteration over the
magnitudes is modelled by looping over `magnitudes.drop 1` with the bin counter
starting at 1. -/
noncomputable def aggregate_bins_to_bars_log (sample_rate fft_size : ℕ)
    (magnitudes : List ℝ) (bars : ℕ) : List ℝ :=
  if magnitudes.isEmpty ∨ bars = 0 then List.replicate bars 0
  else agg_loop sample_rate fft_size bars (magnitudes.drop 1) 1 (List.replicate bars 0)

/-- src/spectrum.rs lines 8-48.  `fft_norms` stands for the rustfft forward
transform composed with the per-bin complex norm (external crate); the code
keeps only the first `fft_size / 2 + 1` magnitudes. -/
noncomputable def compute_spectrum_frame (fft_norms : List ℝ → List ℝ)
    (samples : List ℝ) (sample_rate frame_index _fps fft_size : ℕ)
    (overlap : ℚ) (bars : ℕ) : List ℝ :=
  let h := hop fft_size overlap
  let start := frame_index * h
  if samples.length < start + fft_size then List.replicate bars 0
  else
    let buffer := ((samples.drop start).take fft_size).enum.map
      (fun p => p.2 * hann_window p.1 fft_size)
    let half := fft_size / 2 + 1
    let magnitudes := (fft_norms buffer).take half
    (aggregate_bins_to_bars_log sample_rate fft_size magnitudes bars).map
      (fun x => Real.log (1 + x))

/-- src/spectrum.rs lines 88-119: the frame loop, pushing one bar vector per
frame index and folding each vector's `fold(0.0, f32::max)` into the running
global maximum (`if m > global_max { global_max = m }`). -/
noncomputable def compute_all_spectrums (fft_norms : List ℝ → List ℝ)
    (samples : List ℝ) (sample_rate fps fft_size : ℕ) (overlap : ℚ) (bars : ℕ) :
    List (List ℝ) × ℝ :=
  let h := hop fft_size overlap
  let num_frames := (samples.length - fft_size + h) / h
  (List.range num_frames).foldl
    (fun st frame_index =>
      let bar_values := compute_spectrum_frame fft_norms samples sample_rate
        frame_index fps fft_size overlap bars
      let m := bar_values.foldl max 0
      (st.1 ++ [bar_values], if st.2 < m then m else st.2))
    ([], 0)

/-- Written from the spec words of claim C5: hop size
`max(1, round(fft_size * (1 - overlap)))`, to be compared with the `hop`
translated from the source. -/
def spec_hop_round (fft_size : ℕ) (overlap : ℚ) : ℕ :=
  max 1 (round ((fft_size : ℚ) * (1 - overlap))).toNat

/-- Written from the spec words of claim C1: frame count
`max(0, (len(samples) - fft_size + h)) / h` with integer floor division,
to be compared with the count produced by `compute_all_spectrums`. -/
def spec_num_frames (len fft_size h : ℕ) : ℤ :=
  max 0 ((len : ℤ) - fft_size + h) / h

/-- The magnitudes of the non-DC bins (bin index 1 up to the last magnitude)
that the log-frequency map sends to bar `b`; claim C2 says each bar holds the
maximum of this list, or 0 when it is empty. -/
noncomputable def mapped_bin_mags (sample_rate fft_size bars : ℕ)
    (magnitudes : List ℝ) (b : ℕ) : List ℝ :=
  ((List.range' 1 (magnitudes.length - 1)).filter
    (fun k => bar_ix_of sample_rate fft_size bars k == b)).map
    (fun k => magnitudes.getD k 0)

/-- The sub-sequence of magnitudes in `l` (whose first element carries bin
index `k`) whose bin is mapped to bar `b`; recursion companion of
`mapped_bin_mags` aligned with `agg_loop`. -/
noncomputable def mapped_from (sample_rate fft_size bars b : ℕ) :
    List ℝ → ℕ → List ℝ
  | [], _ => []
  | mag :: rest, k =>
    (if bar_ix_of sample_rate fft_size bars k = b then [mag] else []) ++
      mapped_from sample_rate fft_size bars b rest (k + 1)

/-- RGBA pixel (the four u8 channels of image::Rgba, modelled as naturals). -/
structure Rgba where
  r : ℕ
  g : ℕ
  b : ℕ
  a : ℕ
deriving DecidableEq

/-- image::ImageBuffer: a width x height grid of RGBA pixels.  `pix` is total;
the drawing code only ever writes inside the bounds (see the C9 theorem). -/
structure Img where
  width : ℕ
  height : ℕ
  pix : ℕ → ℕ → Rgba

/-- ImageBuffer::put_pixel: overwrite one pixel. -/
def put_pixel (img : Img) (x y : ℕ) (c : Rgba) : Img :=
  { img with pix := fun i j => if i = x ∧ j = y then c else img.pix i j }

/-- src/draw.rs lines 98-129.  For radius 0 the u32 bounds test; for positive
radius the code casts everything to i64 and tests the two middle strips and
the four corner disks. -/
def point_in_rounded_rect (px py x0 y0 w h r : ℕ) : Bool :=
  if r = 0 then
    decide (x0 ≤ px ∧ px < x0 + w ∧ y0 ≤ py ∧ py < y0 + h)
  else
    let x1 : ℤ := (x0 : ℤ) + w
    let y1 : ℤ := (y0 : ℤ) + h
    let px' : ℤ := px
    let py' : ℤ := py
    let x0' : ℤ := x0
    let y0' : ℤ := y0
    let r' : ℤ := r
    let in_center := decide (x0' + r' ≤ px' ∧ px' < x1 - r' ∧ y0' ≤ py' ∧ py' < y1)
    let in_middle_vertical :=
      decide (x0' ≤ px' ∧ px' < x1 ∧ y0' + r' ≤ py' ∧ py' < y1 - r')
    if in_center || in_middle_vertical then true
    else
      [(x0' + r', y0' + r', r'), (x1 - r' - 1, y0' + r', r'),
       (x0' + r', y1 - r' - 1, r'), (x1 - r' - 1, y1 - r' - 1, r')].any
        (fun c => decide ((px' - c.1) ^ 2 + (py' - c.2.1) ^ 2 ≤ c.2.2 * c.2.2))

/-- src/draw.rs lines 72-96: clamp the radius to half the smaller dimension,
then scan the bounding box, writing `color` at every hit-test pass that lies
inside the canvas (`x < width && y < height`, captured at entry). -/
def draw_rounded_rect (img : Img) (x0 y0 w h : ℕ) (r : ℕ) (color : Rgba) : Img :=
  let r := min (min r (w / 2)) (h / 2)
  let x1 := x0 + w
  let y1 := y0 + h
  (List.range' y0 (y1 - y0)).foldl
    (fun im y =>
      (List.range' x0 (x1 - x0)).foldl
        (fun im' x =>
          if point_in_rounded_rect x y x0 y0 w h r then
            if x < img.width ∧ y < img.height then put_pixel im' x y color else im'
          else im')
        im)
    img

/-- src/draw.rs lines 21-24: the initial canvas is the caller's background
image when given, else a solid fill of the requested dimensions. -/
def background (width height : ℕ) (bg_color : Rgba) (bg_image : Option Img) : Img :=
  match bg_image with
  | some bg => bg
  | none => { width := width, height := height, pix := fun _ _ => bg_color }

/-- src/draw.rs lines 10-69: background, bar layout, then one rounded
rectangle per bar of nonzero pixel height. -/
noncomputable def draw_spectrum_frame
    (width height spectrum_height spectrum_y_from_bottom : ℕ)
    (spectrum_width : Option ℕ) (bar_heights : List ℝ) (bar_color bg_color : Rgba)
    (bg_image : Option Img) : Img :=
  let img := background width height bg_color bg_image
  if bar_heights.isEmpty then img
  else
    let usable_height := spectrum_height - 4
    let y_center := height - spectrum_y_from_bottom - spectrum_height / 2
    let total_bars := bar_heights.length
    let gap := 1
    let total_gaps := (total_bars - 1) * gap
    let strip_width := min (spectrum_width.getD width) width
    let bar_width :=
      if 0 < total_bars ∧ total_gaps < strip_width then
        (strip_width - total_gaps) / total_bars
      else 0
    let radius := min (max (bar_width / 2) 1) 4
    let start_x := (width - (total_bars * bar_width + total_gaps)) / 2
    bar_heights.enum.foldl
      (fun im p =>
        let bar_height := Nat.floor (min (max p.2 0) 1 * (usable_height : ℝ))
        if bar_height = 0 then im
        else
          draw_rounded_rect im (start_x + p.1 * (bar_width + gap))
            (y_center - bar_height / 2) bar_width bar_height radius bar_color)
      img

/-- Written from the spec words of claims C7 (radius > 0 case): a pixel is in
the rounded rectangle iff it lies in the horizontal middle strip (full width,
vertical band excluding the rounded caps), the vertical middle strip (full
height, horizontal band excluding the caps), or within Euclidean distance `r`
(`dx^2 + dy^2 ≤ r^2`) of one of the four corner centers, each inset `r`
pixels from its pair of edges. -/
def spec_in_rounded_rect_pos (px py x0 y0 w h r : ℕ) : Prop :=
  ((x0 : ℤ) ≤ px ∧ (px : ℤ) < x0 + w ∧ (y0 : ℤ) + r ≤ py ∧ (py : ℤ) < y0 + h - r) ∨
  ((x0 : ℤ) + r ≤ px ∧ (px : ℤ) < x0 + w - r ∧ (y0 : ℤ) ≤ py ∧ (py : ℤ) < y0 + h) ∨
  (∃ c ∈ [((x0 : ℤ) + r, (y0 : ℤ) + r), ((x0 : ℤ) + w - 1 - r, (y0 : ℤ) + r),
      ((x0 : ℤ) + r, (y0 : ℤ) + h - 1 - r),
      ((x0 : ℤ) + w - 1 - r, (y0 : ℤ) + h - 1 - r)],
    ((px : ℤ) - c.1) ^ 2 + ((py : ℤ) - c.2) ^ 2 ≤ (r : ℤ) ^ 2)

/-- Helper to evaluate `hop` at concrete arguments whose product is at
least 1. -/
theorem hop_eq_of_one_le (fft : ℕ) (ov : ℚ) (n : ℕ)
    (h1 : (1 : ℚ) ≤ (fft : ℚ) * (1 - ov))
    (hn : (n : ℚ) ≤ (fft : ℚ) * (1 - ov))
    (hn1 : (fft : ℚ) * (1 - ov) < n + 1) : hop fft ov = n := by
  rw [hop, max_eq_right h1, Nat.floor_eq_iff (le_trans zero_le_one h1)]
  exact ⟨hn, hn1⟩

/-- The hop size is at least 1 (the `.max(1.0)` in the source). -/
theorem hop_pos (fft_size : ℕ) (overlap : ℚ) : 1 ≤ hop fft_size overlap := by
  have h1 : (1 : ℚ) ≤ max 1 ((fft_size : ℚ) * (1 - overlap)) := le_max_left _ _
  calc 1 = Nat.floor (1 : ℚ) := Nat.floor_one.symm
    _ ≤ _ := Nat.floor_mono h1

/-- Folding `max` from `a` only grows the accumulator. -/
theorem le_foldl_max (a : ℝ) (l : List ℝ) : a ≤ l.foldl max a := by
  induction l generalizing a with
  | nil => exact le_rfl
  | cons x l ih => exact le_trans (le_max_left a x) (ih (max a x))

/-- Every member of the list is bounded by the `max`-fold. -/
theorem foldl_max_le_of_mem {x : ℝ} {l : List ℝ} (a : ℝ) (hx : x ∈ l) :
    x ≤ l.foldl max a := by
  induction l generalizing a with
  | nil => cases hx
  | cons y l ih =>
    rcases List.mem_cons.mp hx with h | h
    · subst h
      exact le_trans (le_max_right a x) (le_foldl_max _ l)
    · exact ih _ h

/-- The `max`-fold is the initial value or some member of the list. -/
theorem foldl_max_eq_init_or_mem (a : ℝ) (l : List ℝ) :
    l.foldl max a = a ∨ l.foldl max a ∈ l := by
  induction l generalizing a with
  | nil => exact Or.inl rfl
  | cons x l ih =>
    rcases ih (max a x) with h | h
    · rcases max_choice a x with hm | hm
      · exact Or.inl (by rw [List.foldl_cons, h, hm])
      · exact Or.inr (by rw [List.foldl_cons, h, hm]; exact List.mem_cons_self x l)
    · exact Or.inr (List.mem_cons_of_mem x h)

/-- The `max`-fold is bounded by any common upper bound. -/
theorem foldl_max_le (a c : ℝ) (l : List ℝ) (ha : a ≤ c) (h : ∀ x ∈ l, x ≤ c) :
    l.foldl max a ≤ c := by
  induction l generalizing a with
  | nil => exact ha
  | cons x l ih =>
    exact ih _ (max_le ha (h x (List.mem_cons_self x l)))
      (fun y hy => h y (List.mem_cons_of_mem x hy))

/-- The `max`-fold of an all-zero vector from 0 is 0. -/
theorem foldl_max_replicate_zero (n : ℕ) :
    (List.replicate n (0 : ℝ)).foldl max 0 = 0 := by
  refine le_antisymm (foldl_max_le 0 0 _ le_rfl ?_) (le_foldl_max 0 _)
  intro x hx
  rw [List.eq_of_mem_replicate hx]

/-- The source's `if m > g { g = m }` update is a `max`. -/
theorem ite_lt_eq_max (a b : ℝ) : (if a < b then b else a) = max a b := by
  by_cases h : a < b
  · rw [if_pos h, max_eq_right h.le]
  · rw [if_neg h, max_eq_left (le_of_not_lt h)]

/-- `compute_all_spectrums` unfolded to its frame loop. -/
theorem compute_all_spectrums_def (fft_norms : List ℝ → List ℝ) (samples : List ℝ)
    (sample_rate fps fft_size : ℕ) (overlap : ℚ) (bars : ℕ) :
    compute_all_spectrums fft_norms samples sample_rate fps fft_size overlap bars =
      (List.range ((samples.length - fft_size + hop fft_size overlap) /
          hop fft_size overlap)).foldl
        (fun st i =>
          (st.1 ++ [compute_spectrum_frame fft_norms samples sample_rate i fps
              fft_size overlap bars],
            if st.2 < (compute_spectrum_frame fft_norms samples sample_rate i fps
                fft_size overlap bars).foldl max 0 then
              (compute_spectrum_frame fft_norms samples sample_rate i fps
                fft_size overlap bars).foldl max 0
            else st.2))
        ([], 0) := rfl

/-- First component of the frame loop: one bar vector appended per index. -/
theorem frames_foldl_fst (f : ℕ → List ℝ) (l : List ℕ) (fs : List (List ℝ)) (g : ℝ) :
    (l.foldl
        (fun st i =>
          (st.1 ++ [f i],
            if st.2 < (f i).foldl max 0 then (f i).foldl max 0 else st.2))
        (fs, g)).1 = fs ++ l.map f := by
  induction l generalizing fs g with
  | nil => simp
  | cons i rest ih => simp [ih]

/-- Second component of the frame loop: the running maximum of the per-frame
maxima. -/
theorem frames_foldl_snd (f : ℕ → List ℝ) (l : List ℕ) (fs : List (List ℝ)) (g : ℝ) :
    (l.foldl
        (fun st i =>
          (st.1 ++ [f i],
            if st.2 < (f i).foldl max 0 then (f i).foldl max 0 else st.2))
        (fs, g)).2 = (l.map (fun i => (f i).foldl max 0)).foldl max g := by
  induction l generalizing fs g with
  | nil => simp
  | cons i rest ih =>
    simp only [List.foldl_cons]
    rw [ih, ite_lt_eq_max, List.map_cons, List.foldl_cons]

/-- Claim C5 (corrected): the hop size used by the frame sequencer and by
`compute_spectrum_frame` (both call `hop`) equals
`max(1, trunc(fft_size * (1 - overlap)))` — the `as usize` cast truncates the
product toward zero; it does not round to nearest as the claim states. -/
theorem hop_truncates (fft_size : ℕ) (overlap : ℚ) :
    hop fft_size overlap = max 1 (⌊(fft_size : ℚ) * (1 - overlap)⌋.toNat) := by
  rcases le_total ((fft_size : ℚ) * (1 - overlap)) 1 with hq | hq
  · have h2 : (⌊(fft_size : ℚ) * (1 - overlap)⌋.toNat) ≤ 1 := by
      rw [Int.floor_toNat]
      calc Nat.floor ((fft_size : ℚ) * (1 - overlap)) ≤ Nat.floor (1 : ℚ) :=
            Nat.floor_mono hq
        _ = 1 := Nat.floor_one
    rw [hop, max_eq_left hq, Nat.floor_one, max_eq_left h2]
  · have h2 : 1 ≤ Nat.floor ((fft_size : ℚ) * (1 - overlap)) := by
      calc 1 = Nat.floor (1 : ℚ) := Nat.floor_one.symm
        _ ≤ _ := Nat.floor_mono hq
    rw [hop, max_eq_right hq, Int.floor_toNat, max_eq_right h2]

/-- Counterexample to claim C5 as stated: at `fft_size = 2`,
`overlap = 0.25` (all values exact in f32) the product is 1.5; the code
truncates to hop 1, while `max(1, round(1.5))` is 2. -/
theorem hop_round_cex : hop 2 (1/4) ≠ spec_hop_round 2 (1/4) := by
  have h1 : hop 2 (1/4) = 1 :=
    hop_eq_of_one_le 2 (1/4) 1 (by norm_num) (by norm_num) (by norm_num)
  have hr : round (((2 : ℕ) : ℚ) * (1 - 1/4)) = 2 := by
    have h32 : ((2 : ℕ) : ℚ) * (1 - 1/4) + 1/2 = 2 := by push_cast; norm_num
    rw [round_eq, h32]
    exact_mod_cast Int.floor_intCast (α := ℚ) 2
  have h2 : spec_hop_round 2 (1/4) = 2 := by
    rw [spec_hop_round, hr]
    rfl
  rw [h1, h2]
  decide

/-- Helper: the frame count of `compute_all_spectrums`, with the source's
saturating subtraction. -/
theorem cas_length_eq (fft_norms : List ℝ → List ℝ)
    (samples : List ℝ) (sample_rate fps fft_size : ℕ) (overlap : ℚ) (bars : ℕ) :
    (compute_all_spectrums fft_norms samples sample_rate fps fft_size
        overlap bars).1.length =
      (samples.length - fft_size + hop fft_size overlap) / hop fft_size overlap := by
  rw [compute_all_spectrums_def, frames_foldl_fst]
  simp

/-- Helper: on a sample buffer shorter than `fft_size` the sequencer produces
exactly one zero-filled frame and global maximum 0. -/
theorem cas_short_eq (fft_norms : List ℝ → List ℝ)
    (samples : List ℝ) (sample_rate fps fft_size : ℕ) (overlap : ℚ) (bars : ℕ)
    (hlt : samples.length < fft_size) :
    compute_all_spectrums fft_norms samples sample_rate fps fft_size overlap bars =
      ([List.replicate bars 0], 0) := by
  have hpos := hop_pos fft_size overlap
  have hsub : samples.length - fft_size = 0 := Nat.sub_eq_zero_of_le hlt.le
  have hframe : compute_spectrum_frame fft_norms samples sample_rate 0 fps
      fft_size overlap bars = List.replicate bars 0 := by
    simp only [compute_spectrum_frame, Nat.zero_mul, Nat.zero_add]
    rw [if_pos hlt]
  rw [compute_all_spectrums_def, hsub]
  rw [Nat.zero_add, Nat.div_self (Nat.lt_of_lt_of_le Nat.zero_lt_one hpos)]
  simp only [List.range_succ, List.range_zero, List.nil_append,
    List.foldl_cons, List.foldl_nil, hframe,
    foldl_max_replicate_zero, List.nil_append]
  rw [if_neg (lt_irrefl (0 : ℝ))]

/-- Claim C1 (amended): the number of bar vectors returned by
`compute_all_spectrums` is `(len(samples) ∸ fft_size + h) / h` where `∸` is
the saturating subtraction of the source; when `len(samples) ≥ fft_size`
this coincides with the claim's `max(0, len - fft_size + h) / h`, but for
shorter inputs the code emits one (zero-filled) frame, not zero frames. -/
theorem compute_all_spectrums_frame_count (fft_norms : List ℝ → List ℝ)
    (samples : List ℝ) (sample_rate fps fft_size : ℕ) (overlap : ℚ) (bars : ℕ) :
    (compute_all_spectrums fft_norms samples sample_rate fps fft_size
        overlap bars).1.length =
      (samples.length - fft_size + hop fft_size overlap) / hop fft_size overlap :=
  cas_length_eq fft_norms samples sample_rate fps fft_size overlap bars

/-- Counterexample to claim C1 as stated: on the empty sample buffer with
`fft_size = 2`, `overlap = 0` (hop 2), the code returns 1 bar vector while
the claim's `max(0, 0 - 2 + 2) / 2` is 0. -/
theorem compute_all_spectrums_frame_count_cex :
    ((compute_all_spectrums (fun _ => ([] : List ℝ)) ([] : List ℝ)
        44100 30 2 0 4).1.length : ℤ) ≠
      spec_num_frames (List.length ([] : List ℝ)) 2 (hop 2 0) := by
  have h2 : hop 2 0 = 2 :=
    hop_eq_of_one_le 2 0 2 (by norm_num) (by norm_num) (by norm_num)
  rw [cas_length_eq, h2]
  norm_num [spec_num_frames]

/-- Claim C10: for any sample buffer shorter than `fft_size`, any overlap and
any bar count, `compute_all_spectrums` returns exactly one bar vector, that
vector is `bars` zeros, and the global maximum is 0. -/
theorem compute_all_spectrums_short_input (fft_norms : List ℝ → List ℝ)
    (samples : List ℝ) (sample_rate fps fft_size : ℕ) (overlap : ℚ) (bars : ℕ)
    (hlt : samples.length < fft_size) :
    compute_all_spectrums fft_norms samples sample_rate fps fft_size overlap bars =
      ([List.replicate bars 0], 0) :=
  cas_short_eq fft_norms samples sample_rate fps fft_size overlap bars hlt

/-- Witness for C10 at a concrete input. -/
theorem compute_all_spectrums_short_input_witness :
    ([] : List ℝ).length < 2 ∧
      compute_all_spectrums (fun _ => ([] : List ℝ)) ([] : List ℝ) 44100 30 2 0 3 =
        ([List.replicate 3 0], 0) :=
  ⟨by simp, compute_all_spectrums_short_input _ _ _ _ _ _ _ (by simp)⟩

/-- `agg_loop` preserves the accumulator length. -/
theorem agg_loop_length (sr n bars : ℕ) (l : List ℝ) (k : ℕ) (acc : List ℝ) :
    (agg_loop sr n bars l k acc).length = acc.length := by
  induction l generalizing k acc with
  | nil => rfl
  | cons m rest ih =>
    simp only [agg_loop]
    rw [ih]
    split
    · simp
    · rfl

/-- Reading any entry (default 0) of an entrywise-nonnegative list is
nonnegative. -/
theorem getD_zero_nonneg (l : List ℝ) (i : ℕ) (h : ∀ x ∈ l, 0 ≤ x) :
    0 ≤ l.getD i 0 := by
  rw [List.getD_eq_getElem?_getD]
  cases hv : l[i]? with
  | none => simp
  | some v => simpa using h v (List.getElem?_mem hv)

/-- `agg_loop` keeps all entries nonnegative: entries are only ever
overwritten by a strictly larger magnitude. -/
theorem agg_loop_nonneg (sr n bars : ℕ) (l : List ℝ) (k : ℕ) (acc : List ℝ)
    (hacc : ∀ x ∈ acc, 0 ≤ x) : ∀ x ∈ agg_loop sr n bars l k acc, 0 ≤ x := by
  induction l generalizing k acc with
  | nil => exact hacc
  | cons m rest ih =>
    simp only [agg_loop]
    apply ih
    intro x hx
    split at hx
    case isTrue hc =>
      rcases List.mem_or_eq_of_mem_set hx with h | h
      · exact hacc x h
      · subst h
        exact le_of_lt (lt_of_le_of_lt (getD_zero_nonneg acc _ hacc) hc.2)
    case isFalse _ => exact hacc x hx

/-- The aggregator always returns exactly `bars` values. -/
theorem aggregate_bins_length (sr n : ℕ) (mags : List ℝ) (bars : ℕ) :
    (aggregate_bins_to_bars_log sr n mags bars).length = bars := by
  rw [aggregate_bins_to_bars_log]
  split
  · simp
  · rw [agg_loop_length]; simp

/-- All aggregator outputs are nonnegative, for any input magnitudes. -/
theorem aggregate_bins_nonneg (sr n : ℕ) (mags : List ℝ) (bars : ℕ) :
    ∀ x ∈ aggregate_bins_to_bars_log sr n mags bars, 0 ≤ x := by
  rw [aggregate_bins_to_bars_log]
  split
  · intro x hx; rw [List.eq_of_mem_replicate hx]
  · refine agg_loop_nonneg _ _ _ _ _ _ ?_
    intro x hx; rw [List.eq_of_mem_replicate hx]

/-- Helper: every frame's bar vector has length `bars`. -/
theorem csf_length (fft_norms : List ℝ → List ℝ) (samples : List ℝ)
    (sample_rate frame_index fps fft_size : ℕ) (overlap : ℚ) (bars : ℕ) :
    (compute_spectrum_frame fft_norms samples sample_rate frame_index fps
        fft_size overlap bars).length = bars := by
  simp only [compute_spectrum_frame]
  split
  · simp
  · simp [aggregate_bins_length]

/-- Helper: every frame's bar values are nonnegative (zeros, or log(1+x)
with x ≥ 0). -/
theorem csf_nonneg (fft_norms : List ℝ → List ℝ) (samples : List ℝ)
    (sample_rate frame_index fps fft_size : ℕ) (overlap : ℚ) (bars : ℕ) :
    ∀ x ∈ compute_spectrum_frame fft_norms samples sample_rate frame_index fps
        fft_size overlap bars, 0 ≤ x := by
  simp only [compute_spectrum_frame]
  split
  · intro x hx; rw [List.eq_of_mem_replicate hx]
  · intro x hx
    obtain ⟨y, hy, rfl⟩ := List.mem_map.mp hx
    have h0 : (0 : ℝ) ≤ y := aggregate_bins_nonneg _ _ _ _ y hy
    exact Real.log_nonneg (by linarith)

/-- Claim C4: the per-frame bar vector has length exactly `bars` for every
input, and with no magnitudes or `bars = 0` the aggregator returns the
zero-filled vector of length `bars` (possibly empty). -/
theorem bar_vector_always_bars_long :
    (∀ (fft_norms : List ℝ → List ℝ) (samples : List ℝ)
        (sample_rate frame_index fps fft_size : ℕ) (overlap : ℚ) (bars : ℕ),
        (compute_spectrum_frame fft_norms samples sample_rate frame_index fps
            fft_size overlap bars).length = bars) ∧
    (∀ (sample_rate fft_size : ℕ) (mags : List ℝ) (bars : ℕ),
        mags = [] ∨ bars = 0 →
          aggregate_bins_to_bars_log sample_rate fft_size mags bars =
            List.replicate bars 0) := by
  constructor
  · exact csf_length
  · intro sr fft mags bars h
    have hc : (mags.isEmpty = true) ∨ bars = 0 := by
      rcases h with h | h
      · left; rw [h]; rfl
      · right; exact h
    rw [aggregate_bins_to_bars_log, if_pos hc]

/-- Witness for C4: the aggregator on no magnitudes with 5 bars returns five
zeros. -/
theorem bar_vector_always_bars_long_witness :
    (([] : List ℝ) = [] ∨ (5 : ℕ) = 0) ∧
      aggregate_bins_to_bars_log 44100 2048 ([] : List ℝ) 5 = List.replicate 5 0 :=
  ⟨Or.inl rfl, bar_vector_always_bars_long.2 44100 2048 [] 5 (Or.inl rfl)⟩

/-- Claim C3: the global maximum returned by `compute_all_spectrums` is ≥ 0,
all returned entries are ≥ 0, every entry is bounded by the global maximum,
and it is 0 or attained by some returned entry — i.e. it is the true maximum
over all entries, taken as 0 when there are none. -/
theorem compute_all_spectrums_global_max (fft_norms : List ℝ → List ℝ)
    (samples : List ℝ) (sample_rate fps fft_size : ℕ) (overlap : ℚ) (bars : ℕ) :
    0 ≤ (compute_all_spectrums fft_norms samples sample_rate fps fft_size
        overlap bars).2 ∧
    (∀ x ∈ (compute_all_spectrums fft_norms samples sample_rate fps fft_size
        overlap bars).1.join, 0 ≤ x) ∧
    (∀ x ∈ (compute_all_spectrums fft_norms samples sample_rate fps fft_size
        overlap bars).1.join,
      x ≤ (compute_all_spectrums fft_norms samples sample_rate fps fft_size
        overlap bars).2) ∧
    ((compute_all_spectrums fft_norms samples sample_rate fps fft_size
        overlap bars).2 = 0 ∨
      (compute_all_spectrums fft_norms samples sample_rate fps fft_size
        overlap bars).2 ∈
        (compute_all_spectrums fft_norms samples sample_rate fps fft_size
          overlap bars).1.join) := by
  rw [compute_all_spectrums_def, frames_foldl_fst, frames_foldl_snd]
  simp only [List.nil_append]
  refine ⟨le_foldl_max 0 _, ?_, ?_, ?_⟩
  · intro x hx
    obtain ⟨a, ha, hxa⟩ := List.mem_join.mp hx
    obtain ⟨i, _, rfl⟩ := List.mem_map.mp ha
    exact csf_nonneg fft_norms samples sample_rate i fps fft_size overlap bars x hxa
  · intro x hx
    obtain ⟨a, ha, hxa⟩ := List.mem_join.mp hx
    obtain ⟨i, hi, rfl⟩ := List.mem_map.mp ha
    refine le_trans (foldl_max_le_of_mem 0 hxa) (foldl_max_le_of_mem 0 ?_)
    exact List.mem_map_of_mem _ hi
  · rcases foldl_max_eq_init_or_mem 0
        ((List.range ((samples.length - fft_size + hop fft_size overlap) /
            hop fft_size overlap)).map
          (fun i => (compute_spectrum_frame fft_norms samples sample_rate i fps
              fft_size overlap bars).foldl max 0)) with h | h
    · exact Or.inl h
    · obtain ⟨i, hi, hgi⟩ := List.mem_map.mp h
      rcases foldl_max_eq_init_or_mem 0
          (compute_spectrum_frame fft_norms samples sample_rate i fps fft_size
            overlap bars) with h2 | h2
      · exact Or.inl (by rw [← hgi, h2])
      · refine Or.inr ?_
        rw [← hgi]
        exact List.mem_join.mpr
          ⟨_, List.mem_map_of_mem _ hi, h2⟩

/-- Witness for C3 at a concrete input: 0 is a returned entry and is bounded
by the returned global maximum. -/
theorem compute_all_spectrums_global_max_witness :
    (0 : ℝ) ∈ (compute_all_spectrums (fun _ => ([] : List ℝ)) ([] : List ℝ)
        44100 30 2 0 1).1.join ∧
    (0 : ℝ) ≤ (compute_all_spectrums (fun _ => ([] : List ℝ)) ([] : List ℝ)
        44100 30 2 0 1).2 := by
  have e := cas_short_eq (fun _ => ([] : List ℝ)) ([] : List ℝ) 44100 30 2 0 1
    (by simp)
  constructor
  · rw [e]; simp
  · exact (compute_all_spectrums_global_max (fun _ => ([] : List ℝ)) [] 44100
      30 2 0 1).2.2.1 0 (by rw [e]; simp)

/-- With at least one bar, the computed bar index is always in range:
`(t * bars).min(bars - 1)` is at most `bars - 1`. -/
theorem bar_ix_lt (sr n bars : ℕ) (k : ℕ) (hbars : 0 < bars) :
    bar_ix_of sr n bars k < bars := by
  simp only [bar_ix_of]
  have h3 : ((bars : ℝ) - 1) = ((bars - 1 : ℕ) : ℝ) := by
    push_cast [Nat.cast_sub hbars]
    ring
  have key : ∀ x : ℝ, Nat.floor (min x ((bars : ℝ) - 1)) < bars := by
    intro x
    have h2 : Nat.floor (min x ((bars : ℝ) - 1)) ≤ bars - 1 :=
      calc Nat.floor (min x ((bars : ℝ) - 1)) ≤ Nat.floor ((bars : ℝ) - 1) :=
            Nat.floor_mono (min_le_right x ((bars : ℝ) - 1))
        _ = bars - 1 := by rw [h3, Nat.floor_natCast]
    omega
  exact key _

/-- The loop invariant for `agg_loop`: each in-range entry of the result is
the `max`-fold of the magnitudes mapped to it over the initial entry. -/
theorem agg_loop_getD (sr n bars : ℕ) (l : List ℝ) (k : ℕ) (acc : List ℝ)
    (hlen : acc.length = bars) (b : ℕ) (hb : b < bars) :
    (agg_loop sr n bars l k acc).getD b 0 =
      (mapped_from sr n bars b l k).foldl max (acc.getD b 0) := by
  induction l generalizing k acc with
  | nil => rfl
  | cons m rest ih =>
    simp only [agg_loop, mapped_from]
    by_cases he : bar_ix_of sr n bars k = b
    · rw [if_pos he, he, List.singleton_append, List.foldl_cons]
      by_cases hlt : acc.getD b 0 < m
      · rw [if_pos ⟨hb, hlt⟩, ih (k + 1) (acc.set b m) (by simp [hlen])]
        congr 1
        rw [List.getD_eq_getElem?_getD,
          List.getElem?_set_eq_of_lt m (by rw [hlen]; exact hb),
          Option.getD_some, max_eq_right hlt.le]
      · rw [if_neg (fun hc => hlt hc.2), ih (k + 1) acc hlen]
        congr 1
        rw [max_eq_left (le_of_not_lt hlt)]
    · rw [if_neg he, List.nil_append]
      by_cases hc : bar_ix_of sr n bars k < bars ∧
          acc.getD (bar_ix_of sr n bars k) 0 < m
      · rw [if_pos hc, ih (k + 1) _ (by simp [hlen])]
        congr 1
        rw [List.getD_eq_getElem?_getD, List.getD_eq_getElem?_getD,
          List.getElem?_set_ne he]
      · rw [if_neg hc, ih (k + 1) acc hlen]

/-- `mapped_from` in terms of a filtered index range. -/
theorem mapped_from_eq (sr n bars b : ℕ) (l : List ℝ) (k : ℕ) :
    mapped_from sr n bars b l k =
      ((List.range' k l.length).filter
        (fun j => bar_ix_of sr n bars j == b)).map
        (fun j => l.getD (j - k) 0) := by
  induction l generalizing k with
  | nil => rfl
  | cons m rest ih =>
    simp only [mapped_from, List.length_cons]
    rw [List.range'_succ]
    have htail :
        ((List.range' (k + 1) rest.length).filter
            (fun j => bar_ix_of sr n bars j == b)).map
          (fun j => (m :: rest).getD (j - k) 0) =
        ((List.range' (k + 1) rest.length).filter
            (fun j => bar_ix_of sr n bars j == b)).map
          (fun j => rest.getD (j - (k + 1)) 0) := by
      apply List.map_congr_left
      intro j hj
      have hjk : k + 1 ≤ j :=
        (List.mem_range'_1.mp (List.mem_of_mem_filter hj)).1
      have hsub : j - k = (j - (k + 1)) + 1 := by omega
      rw [hsub]
      rfl
    by_cases he : bar_ix_of sr n bars k = b
    · rw [if_pos he, List.filter_cons_of_pos (by simpa using he), List.map_cons,
        htail, ih (k + 1), List.singleton_append]
      simp
    · rw [if_neg he, List.filter_cons_of_neg (by simpa using he), htail,
        ih (k + 1), List.nil_append]

/-- `mapped_bin_mags` agrees with the loop companion started at bin 1. -/
theorem mapped_bin_mags_eq (sr n bars : ℕ) (M : List ℝ) (b : ℕ) :
    mapped_bin_mags sr n bars M b = mapped_from sr n bars b (M.drop 1) 1 := by
  rw [mapped_from_eq, mapped_bin_mags, List.length_drop]
  apply List.map_congr_left
  intro j hj
  have hjk : 1 ≤ j :=
    (List.mem_range'_1.mp (List.mem_of_mem_filter hj)).1
  rw [List.getD_eq_getElem?_getD, List.getD_eq_getElem?_getD,
    List.getElem?_drop]
  congr 2
  omega

/-- Claim C2: for a non-empty (nonnegative) magnitude vector and `bars ≥ 1`,
the aggregator skips bin 0 and sends bin `k ≥ 1` to the bar index computed by
`bar_ix_of` (the clamped log-position formula of the claim); each bar's value
bounds every magnitude mapped to it, is 0 when no bin maps to it, and is
attained by one of the mapped magnitudes otherwise — i.e. it is their
maximum, not their sum or average. -/
theorem aggregate_bins_max_per_bar (sample_rate fft_size : ℕ)
    (magnitudes : List ℝ) (bars : ℕ) (hbars : 0 < bars)
    (hne : magnitudes ≠ []) (hnn : ∀ x ∈ magnitudes, 0 ≤ x)
    (b : ℕ) (hb : b < bars) :
    (∀ x ∈ mapped_bin_mags sample_rate fft_size bars magnitudes b,
      x ≤ (aggregate_bins_to_bars_log sample_rate fft_size magnitudes
          bars).getD b 0) ∧
    (mapped_bin_mags sample_rate fft_size bars magnitudes b = [] →
      (aggregate_bins_to_bars_log sample_rate fft_size magnitudes
          bars).getD b 0 = 0) ∧
    (mapped_bin_mags sample_rate fft_size bars magnitudes b ≠ [] →
      (aggregate_bins_to_bars_log sample_rate fft_size magnitudes
          bars).getD b 0 ∈
        mapped_bin_mags sample_rate fft_size bars magnitudes b) := by
  have h1 : magnitudes.isEmpty = false := by
    cases magnitudes with
    | nil => exact absurd rfl hne
    | cons a l => rfl
  have hguard : ¬(magnitudes.isEmpty = true ∨ bars = 0) := by
    rw [h1]
    push_neg
    exact ⟨Bool.false_ne_true, hbars.ne'⟩
  have hrep : (List.replicate bars (0 : ℝ)).getD b 0 = 0 := by
    simp [List.getD_eq_getElem?_getD, List.getElem?_replicate, hb]
  have hval : (aggregate_bins_to_bars_log sample_rate fft_size magnitudes
      bars).getD b 0 =
      (mapped_bin_mags sample_rate fft_size bars magnitudes b).foldl max 0 := by
    rw [aggregate_bins_to_bars_log, if_neg hguard,
      agg_loop_getD sample_rate fft_size bars (magnitudes.drop 1) 1
        (List.replicate bars 0) (by simp) b hb,
      mapped_bin_mags_eq, hrep]
  have hmnn : ∀ x ∈ mapped_bin_mags sample_rate fft_size bars magnitudes b,
      0 ≤ x := by
    intro x hx
    rw [mapped_bin_mags] at hx
    obtain ⟨j, _, rfl⟩ := List.mem_map.mp hx
    exact getD_zero_nonneg magnitudes j hnn
  refine ⟨fun x hx => ?_, fun he => ?_, fun hne2 => ?_⟩
  · rw [hval]
    exact foldl_max_le_of_mem 0 hx
  · rw [hval, he]
    rfl
  · rw [hval]
    rcases foldl_max_eq_init_or_mem 0
        (mapped_bin_mags sample_rate fft_size bars magnitudes b) with h | h
    · rw [h]
      cases hml : mapped_bin_mags sample_rate fft_size bars magnitudes b with
      | nil => exact absurd hml hne2
      | cons y ys =>
        have hymem : y ∈ mapped_bin_mags sample_rate fft_size bars magnitudes b := by
          rw [hml]
          exact List.mem_cons_self y ys
        have hy0 : 0 ≤ y := hmnn y hymem
        have hyle : y ≤ 0 := by
          have h2 := foldl_max_le_of_mem 0 hymem
          rwa [h] at h2
        have hy : (0 : ℝ) = y := le_antisymm hy0 hyle
        rw [hy]
        exact List.mem_cons_self y ys
    · exact h

/-- Witness for C2 at a concrete input: with one bar, bin 1 of the magnitude
vector `[0, 0]` maps to bar 0 and the bar value is a member of the mapped
magnitudes. -/
theorem aggregate_bins_max_per_bar_witness :
    (aggregate_bins_to_bars_log 44100 4 [0, 0] 1).getD 0 0 ∈
      mapped_bin_mags 44100 4 1 [0, 0] 0 := by
  have hb1 : bar_ix_of 44100 4 1 1 = 0 := by
    have := bar_ix_lt 44100 4 1 1 Nat.one_pos
    omega
  have hmne : mapped_bin_mags 44100 4 1 ([0, 0] : List ℝ) 0 ≠ [] := by
    rw [mapped_bin_mags]
    simp [hb1]
  refine (aggregate_bins_max_per_bar 44100 4 [0, 0] 1 Nat.one_pos (by simp)
      ?_ 0 Nat.one_pos).2.2 hmne
  intro x hx
  have hx0 : x = 0 := by simpa using hx
  simp [hx0]

/-- A predicate preserved by every step of a fold is preserved by the fold. -/
theorem foldl_preserve {α β : Type*} (P : α → Prop) (f : α → β → α) (l : List β)
    (init : α) (h0 : P init) (hstep : ∀ a b, P a → P (f a b)) :
    P (l.foldl f init) := by
  induction l generalizing init with
  | nil => exact h0
  | cons b rest ih => exact ih _ (hstep _ _ h0)

/-- A fold whose steps all act as the identity returns its initial value. -/
theorem foldl_congr_id {α β : Type*} (f : α → β → α) (l : List β) (a : α)
    (h : ∀ x b, b ∈ l → f x b = x) : l.foldl f a = a := by
  induction l generalizing a with
  | nil => rfl
  | cons b rest ih =>
    rw [List.foldl_cons, h a b (List.mem_cons_self b rest)]
    exact ih a (fun x c hc => h x c (List.mem_cons_of_mem b hc))

/-- `draw_rounded_rect` never changes the canvas dimensions. -/
theorem draw_rounded_rect_dims (img : Img) (x0 y0 w h r : ℕ) (c : Rgba) :
    (draw_rounded_rect img x0 y0 w h r c).width = img.width ∧
    (draw_rounded_rect img x0 y0 w h r c).height = img.height := by
  simp only [draw_rounded_rect]
  refine foldl_preserve
    (fun im : Img => im.width = img.width ∧ im.height = img.height) _ _ _
    ⟨rfl, rfl⟩ ?_
  intro a y hPa
  refine foldl_preserve
    (fun im : Img => im.width = img.width ∧ im.height = img.height) _ _ _
    hPa ?_
  intro a' x hPa'
  split
  · split
    · exact hPa'
    · exact hPa'
  · exact hPa'

/-- Helper for C9: any pixel outside the canvas bounds is untouched by
`draw_rounded_rect`, whatever the rectangle geometry. -/
theorem draw_rounded_rect_pix_oob (img : Img) (x0 y0 w h r : ℕ) (c : Rgba)
    (x y : ℕ) (hoob : img.width ≤ x ∨ img.height ≤ y) :
    (draw_rounded_rect img x0 y0 w h r c).pix x y = img.pix x y := by
  simp only [draw_rounded_rect]
  refine foldl_preserve (fun im : Img => im.pix x y = img.pix x y) _ _ _ rfl ?_
  intro a yy hPa
  refine foldl_preserve (fun im : Img => im.pix x y = img.pix x y) _ _ _ hPa ?_
  intro a' xx hPa'
  split
  · split
    case isTrue hin =>
      simp only [put_pixel]
      rw [if_neg ?_]
      · exact hPa'
      · rintro ⟨rfl, rfl⟩
        rcases hoob with hw | hh
        · omega
        · omega
    case isFalse _ => exact hPa'
  · exact hPa'

/-- Helper: the rasterized frame keeps the background's dimensions. -/
theorem dsf_dims (width height sh syb : ℕ) (sw : Option ℕ) (bh : List ℝ)
    (bc bgc : Rgba) (bgi : Option Img) :
    (draw_spectrum_frame width height sh syb sw bh bc bgc bgi).width =
      (background width height bgc bgi).width ∧
    (draw_spectrum_frame width height sh syb sw bh bc bgc bgi).height =
      (background width height bgc bgi).height := by
  simp only [draw_spectrum_frame]
  split
  · exact ⟨rfl, rfl⟩
  · refine foldl_preserve
      (fun im : Img => im.width = (background width height bgc bgi).width ∧
        im.height = (background width height bgc bgi).height) _ _ _
      ⟨rfl, rfl⟩ ?_
    intro a p hPa
    split
    · exact hPa
    · constructor
      · rw [(draw_rounded_rect_dims _ _ _ _ _ _ _).1]
        exact hPa.1
      · rw [(draw_rounded_rect_dims _ _ _ _ _ _ _).2]
        exact hPa.2

/-- Helper: any pixel outside the background's bounds is untouched by the
whole frame rasterization. -/
theorem dsf_pix_oob (width height sh syb : ℕ) (sw : Option ℕ) (bh : List ℝ)
    (bc bgc : Rgba) (bgi : Option Img) (x y : ℕ)
    (hoob : (background width height bgc bgi).width ≤ x ∨
      (background width height bgc bgi).height ≤ y) :
    (draw_spectrum_frame width height sh syb sw bh bc bgc bgi).pix x y =
      (background width height bgc bgi).pix x y := by
  simp only [draw_spectrum_frame]
  split
  · rfl
  · refine (foldl_preserve
      (fun im : Img => im.width = (background width height bgc bgi).width ∧
        im.height = (background width height bgc bgi).height ∧
        im.pix x y = (background width height bgc bgi).pix x y) _ _ _
      ⟨rfl, rfl, rfl⟩ ?_).2.2
    intro a p hPa
    split
    · exact hPa
    · have hoob' : a.width ≤ x ∨ a.height ≤ y := by
        rcases hoob with hw | hh
        · exact Or.inl (by rw [hPa.1]; exact hw)
        · exact Or.inr (by rw [hPa.2.1]; exact hh)
      refine ⟨?_, ?_, ?_⟩
      · rw [(draw_rounded_rect_dims _ _ _ _ _ _ _).1]
        exact hPa.1
      · rw [(draw_rounded_rect_dims _ _ _ _ _ _ _).2]
        exact hPa.2.1
      · rw [draw_rounded_rect_pix_oob a _ _ _ _ _ _ x y hoob']
        exact hPa.2.2

/-- Claim C6 (amended): with a solid background color the returned canvas has
exactly the requested width x height for any bar content; with a
caller-supplied background image the canvas has that image's dimensions —
hence the requested ones exactly when the supplied image matches them, as the
spec's rasterizer contract requires. -/
theorem draw_spectrum_frame_dims :
    (∀ (width height sh syb : ℕ) (sw : Option ℕ) (bh : List ℝ) (bc bgc : Rgba),
      (draw_spectrum_frame width height sh syb sw bh bc bgc none).width =
          width ∧
        (draw_spectrum_frame width height sh syb sw bh bc bgc none).height =
          height) ∧
    (∀ (width height sh syb : ℕ) (sw : Option ℕ) (bh : List ℝ) (bc bgc : Rgba)
        (bg : Img),
      (draw_spectrum_frame width height sh syb sw bh bc bgc (some bg)).width =
          bg.width ∧
        (draw_spectrum_frame width height sh syb sw bh bc bgc
            (some bg)).height = bg.height) := by
  constructor
  · intro width height sh syb sw bh bc bgc
    exact dsf_dims width height sh syb sw bh bc bgc none
  · intro width height sh syb sw bh bc bgc bg
    exact dsf_dims width height sh syb sw bh bc bgc (some bg)

/-- Counterexample to claim C6 as stated: a 1x1 background image supplied to
a call requesting 2x2 yields a 1x1 canvas, not the requested dimensions. -/
theorem draw_spectrum_frame_dims_cex :
    (draw_spectrum_frame 2 2 1 0 none [] ⟨0, 0, 0, 0⟩ ⟨0, 0, 0, 0⟩
        (some ⟨1, 1, fun _ _ => ⟨0, 0, 0, 0⟩⟩)).width ≠ 2 := by
  have h := dsf_dims 2 2 1 0 none [] ⟨0, 0, 0, 0⟩ ⟨0, 0, 0, 0⟩
    (some ⟨1, 1, fun _ _ => ⟨0, 0, 0, 0⟩⟩)
  rw [h.1]
  decide

/-- Claim C8: an empty bar-heights vector leaves the background unchanged
(every pixel equals the background), and all-zero bar heights draw no bar
pixels, leaving the canvas the pure background. -/
theorem draw_spectrum_frame_background_passthrough
    (width height sh syb : ℕ) (sw : Option ℕ) (bh : List ℝ) (bc bgc : Rgba)
    (bgi : Option Img) :
    (bh = [] →
      draw_spectrum_frame width height sh syb sw bh bc bgc bgi =
        background width height bgc bgi) ∧
    ((∀ x ∈ bh, x = 0) →
      draw_spectrum_frame width height sh syb sw bh bc bgc bgi =
        background width height bgc bgi) := by
  constructor
  · intro h
    subst h
    rfl
  · intro hz
    simp only [draw_spectrum_frame]
    split
    · rfl
    · refine foldl_congr_id _ _ _ ?_
      rintro im ⟨i, a⟩ hp
      have h2 := List.mem_enum hp
      have ha : a = 0 := by
        rw [h2.2]
        exact hz _ (List.getElem_mem h2.1)
      subst ha
      have hbh : Nat.floor (min (max (0 : ℝ) 0) 1 * ((sh - 4 : ℕ) : ℝ)) = 0 := by
        norm_num
      simp [hbh]

/-- Witness for C8 at concrete inputs: both the empty and the all-zero
bar-heights vector leave a 4x4 solid background untouched. -/
theorem draw_spectrum_frame_background_passthrough_witness :
    (draw_spectrum_frame 4 4 2 0 none ([] : List ℝ) ⟨1, 2, 3, 4⟩ ⟨9, 9, 9, 9⟩
        none = background 4 4 ⟨9, 9, 9, 9⟩ none) ∧
    (draw_spectrum_frame 4 4 2 0 none ([0, 0] : List ℝ) ⟨1, 2, 3, 4⟩
        ⟨9, 9, 9, 9⟩ none = background 4 4 ⟨9, 9, 9, 9⟩ none) := by
  constructor
  · exact (draw_spectrum_frame_background_passthrough 4 4 2 0 none []
      ⟨1, 2, 3, 4⟩ ⟨9, 9, 9, 9⟩ none).1 rfl
  · refine (draw_spectrum_frame_background_passthrough 4 4 2 0 none [0, 0]
      ⟨1, 2, 3, 4⟩ ⟨9, 9, 9, 9⟩ none).2 ?_
    intro x hx
    rcases List.mem_cons.mp hx with h | h
    · exact h
    · simpa using h

/-- Claim C9: every candidate pixel with `x ≥ width` or `y ≥ height` is
skipped by the bounds check, so for any rectangle geometry
`draw_rounded_rect` — and hence the whole frame rasterization — never
changes a pixel outside the canvas. -/
theorem rasterizer_writes_in_bounds :
    (∀ (img : Img) (x0 y0 w h r : ℕ) (c : Rgba) (x y : ℕ),
      img.width ≤ x ∨ img.height ≤ y →
        (draw_rounded_rect img x0 y0 w h r c).pix x y = img.pix x y) ∧
    (∀ (width height sh syb : ℕ) (sw : Option ℕ) (bh : List ℝ)
        (bc bgc : Rgba) (bgi : Option Img) (x y : ℕ),
      (background width height bgc bgi).width ≤ x ∨
          (background width height bgc bgi).height ≤ y →
        (draw_spectrum_frame width height sh syb sw bh bc bgc bgi).pix x y =
          (background width height bgc bgi).pix x y) :=
  ⟨draw_rounded_rect_pix_oob, dsf_pix_oob⟩

/-- Witness for C9 at a concrete input: a bar overlapping the right edge of a
3x3 canvas does not touch the out-of-bounds column 5. -/
theorem rasterizer_writes_in_bounds_witness :
    (draw_rounded_rect ⟨3, 3, fun _ _ => ⟨0, 0, 0, 0⟩⟩ 2 2 4 4 1
        ⟨7, 7, 7, 7⟩).pix 5 1 =
      (⟨3, 3, fun _ _ => ⟨0, 0, 0, 0⟩⟩ : Img).pix 5 1 :=
  rasterizer_writes_in_bounds.1 ⟨3, 3, fun _ _ => ⟨0, 0, 0, 0⟩⟩ 2 2 4 4 1
    ⟨7, 7, 7, 7⟩ 5 1 (Or.inl (by decide))

/-- An `if` returning `true` in its then-branch is a disjunction. -/
theorem ite_true_or (a b : Bool) : (if a = true then true else b) = (a || b) := by
  cases a <;> simp

/-- Helper for C7: for a positive radius the hit test agrees with the spec's
description (middle strips or one of the four corner disks). -/
theorem pir_pos_iff (px py x0 y0 w h r : ℕ) (hr : 0 < r) :
    (point_in_rounded_rect px py x0 y0 w h r = true ↔
      spec_in_rounded_rect_pos px py x0 y0 w h r) := by
  simp only [point_in_rounded_rect]
  rw [if_neg hr.ne', ite_true_or]
  simp only [spec_in_rounded_rect_pos, List.any_cons, List.any_nil,
    Bool.or_false, Bool.or_eq_true, decide_eq_true_eq, List.mem_cons,
    List.not_mem_nil, or_false, exists_eq_or_imp, exists_eq_left]
  constructor
  · rintro ((h | h) | h | h | h | h)
    · exact Or.inr (Or.inl h)
    · exact Or.inl h
    · exact Or.inr (Or.inr (Or.inl (by linarith [h])))
    · exact Or.inr (Or.inr (Or.inr (Or.inl (by linarith [h]))))
    · exact Or.inr (Or.inr (Or.inr (Or.inr (Or.inl (by linarith [h])))))
    · exact Or.inr (Or.inr (Or.inr (Or.inr (Or.inr (by linarith [h])))))
  · rintro (h | h | h | h | h | h)
    · exact Or.inl (Or.inr h)
    · exact Or.inl (Or.inl h)
    · exact Or.inr (Or.inl (by linarith [h]))
    · exact Or.inr (Or.inr (Or.inl (by linarith [h])))
    · exact Or.inr (Or.inr (Or.inr (Or.inl (by linarith [h]))))
    · exact Or.inr (Or.inr (Or.inr (Or.inr (by linarith [h]))))

/-- Helper for C7: the four pixels exactly `r` pixels diagonally inside each
corner (the corner-disk centers) pass the hit test. -/
theorem corner_centers_inside (x0 y0 w h r : ℕ) (hr : 0 < r)
    (hw : 2 * r ≤ w) (hh : 2 * r ≤ h) :
    point_in_rounded_rect (x0 + r) (y0 + r) x0 y0 w h r = true ∧
    point_in_rounded_rect (x0 + w - 1 - r) (y0 + r) x0 y0 w h r = true ∧
    point_in_rounded_rect (x0 + r) (y0 + h - 1 - r) x0 y0 w h r = true ∧
    point_in_rounded_rect (x0 + w - 1 - r) (y0 + h - 1 - r) x0 y0 w h r = true := by
  refine ⟨?_, ?_, ?_, ?_⟩
  · rw [pir_pos_iff _ _ _ _ _ _ _ hr]
    refine Or.inr (Or.inr ⟨((x0 : ℤ) + r, (y0 : ℤ) + r), by simp, ?_⟩)
    have hA : ((x0 + r : ℕ) : ℤ) - ((x0 : ℤ) + (r : ℤ)) = 0 := by omega
    have hB : ((y0 + r : ℕ) : ℤ) - ((y0 : ℤ) + (r : ℤ)) = 0 := by omega
    rw [hA, hB]
    positivity
  · rw [pir_pos_iff _ _ _ _ _ _ _ hr]
    refine Or.inr (Or.inr ⟨((x0 : ℤ) + w - 1 - r, (y0 : ℤ) + r), by simp, ?_⟩)
    have hA : ((x0 + w - 1 - r : ℕ) : ℤ) -
        ((x0 : ℤ) + (w : ℤ) - 1 - (r : ℤ)) = 0 := by omega
    have hB : ((y0 + r : ℕ) : ℤ) - ((y0 : ℤ) + (r : ℤ)) = 0 := by omega
    rw [hA, hB]
    positivity
  · rw [pir_pos_iff _ _ _ _ _ _ _ hr]
    refine Or.inr (Or.inr ⟨((x0 : ℤ) + r, (y0 : ℤ) + h - 1 - r), by simp, ?_⟩)
    have hA : ((x0 + r : ℕ) : ℤ) - ((x0 : ℤ) + (r : ℤ)) = 0 := by omega
    have hB : ((y0 + h - 1 - r : ℕ) : ℤ) -
        ((y0 : ℤ) + (h : ℤ) - 1 - (r : ℤ)) = 0 := by omega
    rw [hA, hB]
    positivity
  · rw [pir_pos_iff _ _ _ _ _ _ _ hr]
    refine Or.inr (Or.inr
      ⟨((x0 : ℤ) + w - 1 - r, (y0 : ℤ) + h - 1 - r), by simp, ?_⟩)
    have hA : ((x0 + w - 1 - r : ℕ) : ℤ) -
        ((x0 : ℤ) + (w : ℤ) - 1 - (r : ℤ)) = 0 := by omega
    have hB : ((y0 + h - 1 - r : ℕ) : ℤ) -
        ((y0 : ℤ) + (h : ℤ) - 1 - (r : ℤ)) = 0 := by omega
    rw [hA, hB]
    positivity

/-- Helper for C7: the pixel `r + 1` diagonally outside the top-left corner
fails the hit test. -/
theorem out_top_left (x0 y0 w h r : ℕ) (hr : 0 < r)
    (hw : 2 * r ≤ w) (hh : 2 * r ≤ h) (hx : r + 1 ≤ x0) (hy : r + 1 ≤ y0) :
    point_in_rounded_rect (x0 - (r + 1)) (y0 - (r + 1)) x0 y0 w h r = false := by
  rw [← Bool.not_eq_true, pir_pos_iff _ _ _ _ _ _ _ hr]
  have hr' : (1 : ℤ) ≤ (r : ℤ) := by exact_mod_cast hr
  have hw' : 2 * (r : ℤ) ≤ (w : ℤ) := by exact_mod_cast hw
  have hh' : 2 * (r : ℤ) ≤ (h : ℤ) := by exact_mod_cast hh
  rintro (hs | hs | ⟨c, hc, hd⟩)
  · omega
  · omega
  · simp only [List.mem_cons, List.not_mem_nil, or_false] at hc
    rcases hc with rfl | rfl | rfl | rfl
    · have hA : ((x0 - (r + 1) : ℕ) : ℤ) - ((x0 : ℤ) + (r : ℤ)) =
          -(2 * (r : ℤ) + 1) := by omega
      have hB : ((y0 - (r + 1) : ℕ) : ℤ) - ((y0 : ℤ) + (r : ℤ)) =
          -(2 * (r : ℤ) + 1) := by omega
      rw [hA, hB] at hd
      nlinarith [hd, hr']
    · have hA : ((x0 - (r + 1) : ℕ) : ℤ) -
          ((x0 : ℤ) + (w : ℤ) - 1 - (r : ℤ)) = -(w : ℤ) := by omega
      have hB : ((y0 - (r + 1) : ℕ) : ℤ) - ((y0 : ℤ) + (r : ℤ)) =
          -(2 * (r : ℤ) + 1) := by omega
      rw [hA, hB] at hd
      nlinarith [hd, hr', sq_nonneg (w : ℤ)]
    · have hA : ((x0 - (r + 1) : ℕ) : ℤ) - ((x0 : ℤ) + (r : ℤ)) =
          -(2 * (r : ℤ) + 1) := by omega
      have hB : ((y0 - (r + 1) : ℕ) : ℤ) -
          ((y0 : ℤ) + (h : ℤ) - 1 - (r : ℤ)) = -(h : ℤ) := by omega
      rw [hA, hB] at hd
      nlinarith [hd, hr', sq_nonneg (h : ℤ)]
    · have hA : ((x0 - (r + 1) : ℕ) : ℤ) -
          ((x0 : ℤ) + (w : ℤ) - 1 - (r : ℤ)) = -(w : ℤ) := by omega
      have hB : ((y0 - (r + 1) : ℕ) : ℤ) -
          ((y0 : ℤ) + (h : ℤ) - 1 - (r : ℤ)) = -(h : ℤ) := by omega
      rw [hA, hB] at hd
      nlinarith [hd, hr', hw', hh']

/-- Helper for C7: the pixel `r + 1` diagonally outside the top-right corner
fails the hit test. -/
theorem out_top_right (x0 y0 w h r : ℕ) (hr : 0 < r)
    (hw : 2 * r ≤ w) (hh : 2 * r ≤ h) (hy : r + 1 ≤ y0) :
    point_in_rounded_rect (x0 + w + r) (y0 - (r + 1)) x0 y0 w h r = false := by
  rw [← Bool.not_eq_true, pir_pos_iff _ _ _ _ _ _ _ hr]
  have hr' : (1 : ℤ) ≤ (r : ℤ) := by exact_mod_cast hr
  have hw' : 2 * (r : ℤ) ≤ (w : ℤ) := by exact_mod_cast hw
  have hh' : 2 * (r : ℤ) ≤ (h : ℤ) := by exact_mod_cast hh
  rintro (hs | hs | ⟨c, hc, hd⟩)
  · omega
  · omega
  · simp only [List.mem_cons, List.not_mem_nil, or_false] at hc
    rcases hc with rfl | rfl | rfl | rfl
    · have hA : ((x0 + w + r : ℕ) : ℤ) - ((x0 : ℤ) + (r : ℤ)) = (w : ℤ) := by
        omega
      have hB : ((y0 - (r + 1) : ℕ) : ℤ) - ((y0 : ℤ) + (r : ℤ)) =
          -(2 * (r : ℤ) + 1) := by omega
      rw [hA, hB] at hd
      nlinarith [hd, hr', sq_nonneg (w : ℤ)]
    · have hA : ((x0 + w + r : ℕ) : ℤ) -
          ((x0 : ℤ) + (w : ℤ) - 1 - (r : ℤ)) = 2 * (r : ℤ) + 1 := by omega
      have hB : ((y0 - (r + 1) : ℕ) : ℤ) - ((y0 : ℤ) + (r : ℤ)) =
          -(2 * (r : ℤ) + 1) := by omega
      rw [hA, hB] at hd
      nlinarith [hd, hr']
    · have hA : ((x0 + w + r : ℕ) : ℤ) - ((x0 : ℤ) + (r : ℤ)) = (w : ℤ) := by
        omega
      have hB : ((y0 - (r + 1) : ℕ) : ℤ) -
          ((y0 : ℤ) + (h : ℤ) - 1 - (r : ℤ)) = -(h : ℤ) := by omega
      rw [hA, hB] at hd
      nlinarith [hd, hr', hw', hh']
    · have hA : ((x0 + w + r : ℕ) : ℤ) -
          ((x0 : ℤ) + (w : ℤ) - 1 - (r : ℤ)) = 2 * (r : ℤ) + 1 := by omega
      have hB : ((y0 - (r + 1) : ℕ) : ℤ) -
          ((y0 : ℤ) + (h : ℤ) - 1 - (r : ℤ)) = -(h : ℤ) := by omega
      rw [hA, hB] at hd
      nlinarith [hd, hr', sq_nonneg (h : ℤ)]

/-- Helper for C7: the pixel `r + 1` diagonally outside the bottom-left
corner fails the hit test. -/
theorem out_bottom_left (x0 y0 w h r : ℕ) (hr : 0 < r)
    (hw : 2 * r ≤ w) (hh : 2 * r ≤ h) (hx : r + 1 ≤ x0) :
    point_in_rounded_rect (x0 - (r + 1)) (y0 + h + r) x0 y0 w h r = false := by
  rw [← Bool.not_eq_true, pir_pos_iff _ _ _ _ _ _ _ hr]
  have hr' : (1 : ℤ) ≤ (r : ℤ) := by exact_mod_cast hr
  have hw' : 2 * (r : ℤ) ≤ (w : ℤ) := by exact_mod_cast hw
  have hh' : 2 * (r : ℤ) ≤ (h : ℤ) := by exact_mod_cast hh
  rintro (hs | hs | ⟨c, hc, hd⟩)
  · omega
  · omega
  · simp only [List.mem_cons, List.not_mem_nil, or_false] at hc
    rcases hc with rfl | rfl | rfl | rfl
    · have hA : ((x0 - (r + 1) : ℕ) : ℤ) - ((x0 : ℤ) + (r : ℤ)) =
          -(2 * (r : ℤ) + 1) := by omega
      have hB : ((y0 + h + r : ℕ) : ℤ) - ((y0 : ℤ) + (r : ℤ)) = (h : ℤ) := by
        omega
      rw [hA, hB] at hd
      nlinarith [hd, hr', sq_nonneg (h : ℤ)]
    · have hA : ((x0 - (r + 1) : ℕ) : ℤ) -
          ((x0 : ℤ) + (w : ℤ) - 1 - (r : ℤ)) = -(w : ℤ) := by omega
      have hB : ((y0 + h + r : ℕ) : ℤ) - ((y0 : ℤ) + (r : ℤ)) = (h : ℤ) := by
        omega
      rw [hA, hB] at hd
      nlinarith [hd, hr', hw', hh']
    · have hA : ((x0 - (r + 1) : ℕ) : ℤ) - ((x0 : ℤ) + (r : ℤ)) =
          -(2 * (r : ℤ) + 1) := by omega
      have hB : ((y0 + h + r : ℕ) : ℤ) -
          ((y0 : ℤ) + (h : ℤ) - 1 - (r : ℤ)) = 2 * (r : ℤ) + 1 := by omega
      rw [hA, hB] at hd
      nlinarith [hd, hr']
    · have hA : ((x0 - (r + 1) : ℕ) : ℤ) -
          ((x0 : ℤ) + (w : ℤ) - 1 - (r : ℤ)) = -(w : ℤ) := by omega
      have hB : ((y0 + h + r : ℕ) : ℤ) -
          ((y0 : ℤ) + (h : ℤ) - 1 - (r : ℤ)) = 2 * (r : ℤ) + 1 := by omega
      rw [hA, hB] at hd
      nlinarith [hd, hr', sq_nonneg (w : ℤ)]

/-- Helper for C7: the pixel `r + 1` diagonally outside the bottom-right
corner fails the hit test. -/
theorem out_bottom_right (x0 y0 w h r : ℕ) (hr : 0 < r)
    (hw : 2 * r ≤ w) (hh : 2 * r ≤ h) :
    point_in_rounded_rect (x0 + w + r) (y0 + h + r) x0 y0 w h r = false := by
  rw [← Bool.not_eq_true, pir_pos_iff _ _ _ _ _ _ _ hr]
  have hr' : (1 : ℤ) ≤ (r : ℤ) := by exact_mod_cast hr
  have hw' : 2 * (r : ℤ) ≤ (w : ℤ) := by exact_mod_cast hw
  have hh' : 2 * (r : ℤ) ≤ (h : ℤ) := by exact_mod_cast hh
  rintro (hs | hs | ⟨c, hc, hd⟩)
  · omega
  · omega
  · simp only [List.mem_cons, List.not_mem_nil, or_false] at hc
    rcases hc with rfl | rfl | rfl | rfl
    · have hA : ((x0 + w + r : ℕ) : ℤ) - ((x0 : ℤ) + (r : ℤ)) = (w : ℤ) := by
        omega
      have hB : ((y0 + h + r : ℕ) : ℤ) - ((y0 : ℤ) + (r : ℤ)) = (h : ℤ) := by
        omega
      rw [hA, hB] at hd
      nlinarith [hd, hr', hw', hh']
    · have hA : ((x0 + w + r : ℕ) : ℤ) -
          ((x0 : ℤ) + (w : ℤ) - 1 - (r : ℤ)) = 2 * (r : ℤ) + 1 := by omega
      have hB : ((y0 + h + r : ℕ) : ℤ) - ((y0 : ℤ) + (r : ℤ)) = (h : ℤ) := by
        omega
      rw [hA, hB] at hd
      nlinarith [hd, hr', sq_nonneg (h : ℤ)]
    · have hA : ((x0 + w + r : ℕ) : ℤ) - ((x0 : ℤ) + (r : ℤ)) = (w : ℤ) := by
        omega
      have hB : ((y0 + h + r : ℕ) : ℤ) -
          ((y0 : ℤ) + (h : ℤ) - 1 - (r : ℤ)) = 2 * (r : ℤ) + 1 := by omega
      rw [hA, hB] at hd
      nlinarith [hd, hr', sq_nonneg (w : ℤ)]
    · have hA : ((x0 + w + r : ℕ) : ℤ) -
          ((x0 : ℤ) + (w : ℤ) - 1 - (r : ℤ)) = 2 * (r : ℤ) + 1 := by omega
      have hB : ((y0 + h + r : ℕ) : ℤ) -
          ((y0 : ℤ) + (h : ℤ) - 1 - (r : ℤ)) = 2 * (r : ℤ) + 1 := by omega
      rw [hA, hB] at hd
      nlinarith [hd, hr']

/-- Claim C7: with radius 0 the hit test is exactly the axis-aligned bounds
test; with radius `r > 0` it accepts exactly the two middle strips and the
four corner disks of radius `r` centered `r` pixels inside each corner
(`spec_in_rounded_rect_pos`, written from the spec); in particular (for a
rectangle large enough for the caps, as produced by the radius clamping) the
four pixels exactly `r` pixels diagonally inside each corner are inside and
the pixels `r + 1` pixels diagonally outside each corner are outside. -/
theorem point_in_rounded_rect_cases :
    (∀ px py x0 y0 w h : ℕ,
      point_in_rounded_rect px py x0 y0 w h 0 = true ↔
        (x0 ≤ px ∧ px < x0 + w ∧ y0 ≤ py ∧ py < y0 + h)) ∧
    (∀ px py x0 y0 w h r : ℕ, 0 < r →
      (point_in_rounded_rect px py x0 y0 w h r = true ↔
        spec_in_rounded_rect_pos px py x0 y0 w h r)) ∧
    (∀ x0 y0 w h r : ℕ, 0 < r → 2 * r ≤ w → 2 * r ≤ h →
      point_in_rounded_rect (x0 + r) (y0 + r) x0 y0 w h r = true ∧
      point_in_rounded_rect (x0 + w - 1 - r) (y0 + r) x0 y0 w h r = true ∧
      point_in_rounded_rect (x0 + r) (y0 + h - 1 - r) x0 y0 w h r = true ∧
      point_in_rounded_rect (x0 + w - 1 - r) (y0 + h - 1 - r) x0 y0 w h r =
        true) ∧
    (∀ x0 y0 w h r : ℕ, 0 < r → 2 * r ≤ w → 2 * r ≤ h → r + 1 ≤ x0 →
        r + 1 ≤ y0 →
      point_in_rounded_rect (x0 - (r + 1)) (y0 - (r + 1)) x0 y0 w h r =
          false ∧
      point_in_rounded_rect (x0 + w + r) (y0 - (r + 1)) x0 y0 w h r = false ∧
      point_in_rounded_rect (x0 - (r + 1)) (y0 + h + r) x0 y0 w h r = false ∧
      point_in_rounded_rect (x0 + w + r) (y0 + h + r) x0 y0 w h r = false) := by
  refine ⟨?_, ?_, ?_, ?_⟩
  · intro px py x0 y0 w h
    simp [point_in_rounded_rect]
  · intro px py x0 y0 w h r hr
    exact pir_pos_iff px py x0 y0 w h r hr
  · intro x0 y0 w h r hr hw hh
    exact corner_centers_inside x0 y0 w h r hr hw hh
  · intro x0 y0 w h r hr hw hh hx hy
    exact ⟨out_top_left x0 y0 w h r hr hw hh hx hy,
      out_top_right x0 y0 w h r hr hw hh hy,
      out_bottom_left x0 y0 w h r hr hw hh hx,
      out_bottom_right x0 y0 w h r hr hw hh⟩

/-- Witness for C7 at concrete inputs: for the rectangle at (5,5), size
10x10, radius 2, the corner-center pixel (7,7) is inside and the pixel (2,2),
3 out diagonally, is outside. -/
theorem point_in_rounded_rect_cases_witness :
    point_in_rounded_rect (5 + 2) (5 + 2) 5 5 10 10 2 = true ∧
    point_in_rounded_rect (5 - (2 + 1)) (5 - (2 + 1)) 5 5 10 10 2 = false :=
  ⟨(point_in_rounded_rect_cases.2.2.1 5 5 10 10 2 (by decide) (by decide)
      (by decide)).1,
    (point_in_rounded_rect_cases.2.2.2 5 5 10 10 2 (by decide) (by decide)
      (by decide) (by decide) (by decide)).1⟩
